import Mathlib

/-!
Verification of the `create_icon` script (src/create_icon.py).

The script builds a 256x256 transparent RGBA canvas, fills one fixed
16-vertex polygon with the solid color `#D94E41` (no outline), and saves
the result as `logo.ico` with six embedded sizes.

The drawing and encoding primitives (`ImageDraw.polygon`, `Image.save`
with `format='ICO'`) are library code that is not part of the repository;
they are modelled from the specification (scanline even-odd polygon fill,
icon container holding resampled copies at the declared sizes).
-/

namespace CreateIcon

/-- An 8-bit-per-channel RGBA pixel value. -/
structure RGBA where
  r : Nat
  g : Nat
  b : Nat
  a : Nat
deriving DecidableEq, Repr

/-- The transparent background color `(0, 0, 0, 0)` used by `Image.new`. -/
def transparent : RGBA := ⟨0, 0, 0, 0⟩

/-- Canvas width and height from `Image.new('RGBA', (256, 256), ...)`. -/
def canvasSize : Nat := 256

/-- A canvas maps pixel coordinates to colors. -/
def Canvas : Type := Nat → Nat → RGBA

/-- The freshly created canvas: every pixel transparent. -/
def canvasBefore : Canvas := fun _ _ => transparent

/-- The literal 16-vertex polygon `points` from src/create_icon.py, lines 13-30. -/
def points : List (Int × Int) :=
  [ (128, 20)
  , (150, 80)
  , (210, 60)
  , (170, 110)
  , (220, 160)
  , (150, 160)
  , (160, 240)
  , (140, 240)
  , (128, 200)
  , (116, 240)
  , (96, 240)
  , (106, 160)
  , (36, 160)
  , (86, 110)
  , (46, 60)
  , (106, 80) ]

/-- Value of a hexadecimal digit character, if it is one. -/
def hexVal (c : Char) : Option Nat :=
  if '0' ≤ c ∧ c ≤ '9' then some (c.toNat - '0'.toNat)
  else if 'a' ≤ c ∧ c ≤ 'f' then some (c.toNat - 'a'.toNat + 10)
  else if 'A' ≤ c ∧ c ≤ 'F' then some (c.toNat - 'A'.toNat + 10)
  else none

/-- Modelled from the spec: PIL's color-string parsing (`ImageColor`) for the
`fill='#D94E41'` argument, which is library code not in the repository.  A
`#RRGGBB` hex string denotes the solid RGB color, fully opaque on an RGBA
canvas (spec §3: "a constant solid RGB color (hex D94E41), fully opaque"). -/
def parseHexColor (s : String) : Option RGBA :=
  match s.data with
  | ['#', h1, h2, h3, h4, h5, h6] =>
    match hexVal h1, hexVal h2, hexVal h3, hexVal h4, hexVal h5, hexVal h6 with
    | some a1, some a2, some a3, some a4, some a5, some a6 =>
      some ⟨16 * a1 + a2, 16 * a3 + a4, 16 * a5 + a6, 255⟩
    | _, _, _, _, _, _ => none
  | _ => none

/-- The fill color string literal passed to `draw.polygon` on line 32. -/
def fillColorString : String := "#D94E41"

/-- The fill color as an RGBA value. -/
def fillColor : RGBA := (parseHexColor fillColorString).getD transparent

/-- A drawing operation issued against the canvas. -/
inductive DrawOp where
  | polygon (pts : List (Int × Int)) (fill : Option RGBA) (outline : Option RGBA)
deriving DecidableEq

/-- Whether a drawing operation is a polygon fill (has a fill color). -/
def isPolygonFill : DrawOp → Bool
  | .polygon _ fill _ => fill.isSome

/-- The complete trace of drawing operations performed by `create_icon`:
exactly the single call `draw.polygon(points, fill='#D94E41')` on line 32,
with no outline argument. -/
def drawOps : List DrawOp := [.polygon points (some fillColor) none]

/-! ## The polygon fill

`ImageDraw.polygon` is PIL library code, absent from the repository.  It is
modelled from the spec (§4.1): "Fills the region enclosed by the fixed
16-point polygon path with the fixed opaque color, using a standard
scanline/even-odd ... fill rule".  The model below is a scanline even-odd
fill: for each row `y` it computes the crossings of the polygon
edges with that row (half-open rule on the edge's `y`-range, so vertices
are counted once and horizontal edges not at all), sorts them, pairs them
into spans, and fills the integer points lying in a span. -/

/-- The edges of the closed polygon path: consecutive vertices plus the
implicit closing edge from the last vertex back to the first. -/
def closeEdges (pts : List (Int × Int)) : List ((Int × Int) × (Int × Int)) :=
  match pts with
  | [] => []
  | p :: ps => pts.zip (ps ++ [p])

/-- An exact rational x-coordinate `num / den`, with `den > 0` maintained by
construction, used for edge/scanline crossings. -/
structure Frac where
  num : Int
  den : Int
deriving DecidableEq, Repr

/-- Whether edge `e` straddles the horizontal line at height `y`, under the
half-open rule (an edge covers its lower endpoint's row but not its upper
endpoint's row, so shared vertices are counted once and horizontal edges
never). -/
def straddles (e : (Int × Int) × (Int × Int)) (y : Int) : Bool :=
  (e.1.2 ≤ y && y < e.2.2) || (e.2.2 ≤ y && y < e.1.2)

/-- The exact x-coordinate where edge `e` crosses the horizontal line at
height `y` (meaningful when `straddles e y`): the solution of the linear
interpolation `x = x0 + (y - y0) * (x1 - x0) / (y1 - y0)`, kept as an exact
fraction with positive denominator. -/
def crossingAt (e : (Int × Int) × (Int × Int)) (y : Int) : Frac :=
  if e.2.2 - e.1.2 > 0 then
    ⟨e.1.1 * (e.2.2 - e.1.2) + (y - e.1.2) * (e.2.1 - e.1.1), e.2.2 - e.1.2⟩
  else
    ⟨-(e.1.1 * (e.2.2 - e.1.2) + (y - e.1.2) * (e.2.1 - e.1.1)), -(e.2.2 - e.1.2)⟩

/-- Comparison of two crossings (valid when both denominators are positive). -/
def fracLE (a b : Frac) : Bool := a.num * b.den ≤ b.num * a.den

/-- Insert a crossing into a sorted list of crossings. -/
def insertFrac (a : Frac) : List Frac → List Frac
  | [] => [a]
  | b :: bs => if fracLE a b then a :: b :: bs else b :: insertFrac a bs

/-- Insertion sort of crossings. -/
def sortFracs : List Frac → List Frac
  | [] => []
  | a :: as => insertFrac a (sortFracs as)

/-- Pair a sorted list of crossings into fill spans. -/
def pairUp : List Frac → List (Frac × Frac)
  | a :: b :: rest => (a, b) :: pairUp rest
  | _ => []

/-- All crossings of the polygon's edges with the row at height `y`. -/
def rowCrossings (pts : List (Int × Int)) (y : Int) : List Frac :=
  (closeEdges pts).filterMap fun e =>
    if straddles e y then some (crossingAt e y) else none

/-- The fill spans of row `y`: sorted crossings paired up. -/
def rowSpans (pts : List (Int × Int)) (y : Int) : List (Frac × Frac) :=
  pairUp (sortFracs (rowCrossings pts y))

/-- Whether integer abscissa `x` lies in the (closed) span `s`. -/
def inSpan (x : Int) (s : Frac × Frac) : Bool :=
  s.1.num ≤ x * s.1.den && x * s.2.den ≤ s.2.num

/-- Modelled from the spec: the pixel-level effect of PIL's
`ImageDraw.polygon` fill (library code not in the repository), as the spec
§4.1 describes it — a scanline even-odd fill.  Pixel `(x, y)` is painted
iff it lies in one of the even-odd fill spans of its row. -/
def scanlineFilled (pts : List (Int × Int)) (x y : Int) : Bool :=
  (rowSpans pts y).any (inSpan x)

/-- The canvas after `draw.polygon(points, fill='#D94E41')`: filled pixels
take the fill color, all others keep their previous color. -/
def drawPolygonFill (pts : List (Int × Int)) (c : RGBA) (cv : Canvas) : Canvas :=
  fun x y => if scanlineFilled pts (x : Int) (y : Int) then c else cv x y

/-- The 256x256 canvas produced by `create_icon` just before encoding. -/
def canvasAfter : Canvas := drawPolygonFill points fillColor canvasBefore

/-! ## Mathematical insideness

To check that the modelled fill paints exactly the polygon's interior at
non-boundary pixels, strict insideness is defined independently of the
scanline spans: by the parity of the crossing number of a rightward ray
(the standard even-odd point-in-polygon test), together with a
point-on-boundary test. -/

/-- Whether the point `(x, y)` is strictly to the left of the crossing of
edge `e` with row `y` (meaningful when `straddles e y`). -/
def leftOfCrossing (x : Int) (c : Frac) : Bool := x * c.den < c.num

/-- The crossing number of the rightward horizontal ray from `(x, y)` with
the closed polygon path: the number of edges that straddle row `y` and
cross it strictly to the right of `x`. -/
def rayCrossings (pts : List (Int × Int)) (x y : Int) : Nat :=
  (closeEdges pts).countP fun e =>
    straddles e y && leftOfCrossing x (crossingAt e y)

/-- Whether point `r` lies on the closed segment from `p` to `q`:
inside the bounding box and collinear with the endpoints. -/
def onSeg (p q r : Int × Int) : Bool :=
  min p.1 q.1 ≤ r.1 && r.1 ≤ max p.1 q.1 &&
  min p.2 q.2 ≤ r.2 && r.2 ≤ max p.2 q.2 &&
  (q.1 - p.1) * (r.2 - p.2) = (q.2 - p.2) * (r.1 - p.1)

/-- Whether the point `(x, y)` lies on the polygon's boundary, i.e. on one
of the closed edge segments of the closed path. -/
def onBoundary (pts : List (Int × Int)) (x y : Int) : Bool :=
  (closeEdges pts).any fun e => onSeg e.1 e.2 (x, y)

/-- The point `(x, y)` is strictly inside the polygon: off the boundary,
with an odd ray-crossing number. -/
def strictlyInside (pts : List (Int × Int)) (x y : Int) : Bool :=
  !onBoundary pts x y && rayCrossings pts x y % 2 = 1

/-- The point `(x, y)` is strictly outside the polygon: off the boundary,
with an even ray-crossing number. -/
def strictlyOutside (pts : List (Int × Int)) (x y : Int) : Bool :=
  !onBoundary pts x y && rayCrossings pts x y % 2 = 0

/-! ## The ICO artifact and the run of `create_icon` -/

/-- An image embedded in the icon container. -/
structure IcoImage where
  width : Nat
  height : Nat
  pixel : Nat → Nat → RGBA

/-- The `sizes` list passed to `img.save` on line 35. -/
def icoSizes : List (Nat × Nat) :=
  [(256, 256), (128, 128), (64, 64), (48, 48), (32, 32), (16, 16)]

/-- Modelled from the spec: the resampling the ICO encoder applies to
produce each embedded size from the 256x256 source (spec §4.1 step 3;
the particular filter is library code not in the repository and is
immaterial to the claims, so a simple coordinate-scaling resampler stands
in for it). -/
def resampleTo (cv : Canvas) (w h : Nat) : IcoImage :=
  ⟨w, h, fun i j => cv (i * canvasSize / w) (j * canvasSize / h)⟩

/-- Modelled from the spec: the content of the icon container written by
`img.save('logo.ico', format='ICO', sizes=[...])` (library code not in the
repository) — one embedded image per declared size, each resampled from
the drawn canvas (spec §3, §4.1). -/
def icoArtifact : List IcoImage :=
  icoSizes.map fun s => resampleTo canvasAfter s.1 s.2

/-- The fixed output path of the script. -/
def outputPath : String := "logo.ico"

/-- The observable environment of a run: a file system mapping paths to
icon contents, and the standard-output lines printed so far. -/
structure World where
  fs : String → Option (List IcoImage)
  out : List String

/-- One invocation of `create_icon`: builds the canvas, draws the polygon,
writes the icon artifact to `logo.ico` (overwriting any previous file at
that path), prints the confirmation line, and returns the updated world
together with the 256x256 canvas as it stood just before encoding. -/
def create_icon (w : World) : World × Canvas :=
  ({ fs := fun p => if p = outputPath then some icoArtifact else w.fs p
   , out := w.out ++ ["logo.ico created successfully."] }
  , canvasAfter)

/-! ## Simplicity of the closed polygon path -/

/-- The `i`-th vertex of the polygon. -/
def vertex (i : Fin 16) : Int × Int := points.getD i.val (0, 0)

/-- The `i`-th edge of the closed path, the last vertex connecting back to
the first (`Fin` addition wraps around). -/
def edgeAt (i : Fin 16) : (Int × Int) × (Int × Int) := (vertex i, vertex (i + 1))

/-- Twice the signed area of the triangle `a b c`; zero exactly when the
three points are collinear. -/
def orient2 (a b c : Int × Int) : Int :=
  (b.1 - a.1) * (c.2 - a.2) - (b.2 - a.2) * (c.1 - a.1)

/-- Whether the closed segments `e` and `f` share at least one point:
either they cross properly (endpoints of each strictly on opposite sides
of the other), or some endpoint lies on the other segment. -/
def segIntersect (e f : (Int × Int) × (Int × Int)) : Bool :=
  (((orient2 f.1 f.2 e.1 < 0 && 0 < orient2 f.1 f.2 e.2) ||
    (0 < orient2 f.1 f.2 e.1 && orient2 f.1 f.2 e.2 < 0)) &&
   ((orient2 e.1 e.2 f.1 < 0 && 0 < orient2 e.1 e.2 f.2) ||
    (0 < orient2 e.1 e.2 f.1 && orient2 e.1 e.2 f.2 < 0))) ||
  onSeg f.1 f.2 e.1 || onSeg f.1 f.2 e.2 || onSeg e.1 e.2 f.1 || onSeg e.1 e.2 f.2

/-- Whether two consecutive edges `e` and `f` of the path meet only at
their shared vertex `e.2 = f.1`: they do share that vertex, and the far
endpoints do not lie on collinear rays pointing the same way out of it
(which is the only way two segments with a common endpoint can overlap in
more than that point). -/
def meetOnlyAtShared (e f : (Int × Int) × (Int × Int)) : Bool :=
  e.2 = f.1 &&
  !(orient2 f.1 e.1 f.2 = 0 &&
    0 < (e.1.1 - f.1.1) * (f.2.1 - f.1.1) + (e.1.2 - f.1.2) * (f.2.2 - f.1.2))

/-! ## Order facts about crossings

`fracLE` compares exact crossing abscissas; on fractions with positive
denominators it is a total preorder, and `leftOfCrossing` is monotone
along it.  These facts drive the insertion-sort correctness proof and the
parity/span equivalence below. -/

theorem fracLE_total (a b : Frac) : fracLE a b = true ∨ fracLE b a = true := by
  simp only [fracLE, decide_eq_true_eq]
  exact le_total (a.num * b.den) (b.num * a.den)

theorem fracLE_trans {a b c : Frac} (ha : 0 < a.den) (hb : 0 < b.den) (hc : 0 < c.den)
    (hab : fracLE a b = true) (hbc : fracLE b c = true) : fracLE a c = true := by
  simp only [fracLE, decide_eq_true_eq] at hab hbc ⊢
  have key : a.num * c.den * b.den ≤ c.num * a.den * b.den := by nlinarith
  exact Int.le_of_mul_le_mul_right key hb

theorem leftOf_mono {x : Int} {a c : Frac} (ha : 0 < a.den) (hc : 0 < c.den)
    (hx : leftOfCrossing x a = true) (hac : fracLE a c = true) :
    leftOfCrossing x c = true := by
  simp only [leftOfCrossing, fracLE, decide_eq_true_eq] at hx hac ⊢
  have key : x * c.den * a.den < c.num * a.den := by nlinarith
  exact Int.lt_of_mul_lt_mul_right key ha.le

theorem rightOf_mono {x : Int} {a b : Frac} (ha : 0 < a.den) (hb : 0 < b.den)
    (hab : fracLE a b = true) (hx : b.num < x * b.den) : a.num < x * a.den := by
  simp only [fracLE, decide_eq_true_eq] at hab
  have key : a.num * b.den < x * a.den * b.den := by nlinarith
  exact Int.lt_of_mul_lt_mul_right key hb.le

/-! ## Insertion sort facts -/

theorem mem_insertFrac {a c : Frac} : ∀ {l : List Frac}, c ∈ insertFrac a l → c = a ∨ c ∈ l := by
  intro l
  induction l with
  | nil =>
    intro h
    simp only [insertFrac, List.mem_singleton] at h
    exact Or.inl h
  | cons b bs ih =>
    intro h
    simp only [insertFrac] at h
    by_cases hc : fracLE a b = true
    · rw [if_pos hc] at h
      rcases List.mem_cons.mp h with h | h
      · exact Or.inl h
      · exact Or.inr h
    · rw [if_neg hc] at h
      rcases List.mem_cons.mp h with h | h
      · exact Or.inr (List.mem_cons.mpr (Or.inl h))
      · rcases ih h with h | h
        · exact Or.inl h
        · exact Or.inr (List.mem_cons.mpr (Or.inr h))

theorem countP_insertFrac (p : Frac → Bool) (a : Frac) :
    ∀ l : List Frac, (insertFrac a l).countP p = (a :: l).countP p := by
  intro l
  induction l with
  | nil => rfl
  | cons b bs ih =>
    simp only [insertFrac]
    by_cases hc : fracLE a b = true
    · rw [if_pos hc]
    · rw [if_neg hc]
      simp only [List.countP_cons, ih]
      omega

theorem length_insertFrac (a : Frac) :
    ∀ l : List Frac, (insertFrac a l).length = l.length + 1 := by
  intro l
  induction l with
  | nil => rfl
  | cons b bs ih =>
    simp only [insertFrac]
    by_cases hc : fracLE a b = true
    · rw [if_pos hc]
      rfl
    · rw [if_neg hc]
      simp [ih]

theorem mem_sortFracs {c : Frac} : ∀ {l : List Frac}, c ∈ sortFracs l → c ∈ l := by
  intro l
  induction l with
  | nil => intro h; simp [sortFracs] at h
  | cons a as ih =>
    intro h
    simp only [sortFracs] at h
    rcases mem_insertFrac h with h | h
    · simp [h]
    · exact List.mem_cons.mpr (Or.inr (ih h))

theorem countP_sortFracs (p : Frac → Bool) :
    ∀ l : List Frac, (sortFracs l).countP p = l.countP p := by
  intro l
  induction l with
  | nil => rfl
  | cons a as ih =>
    simp only [sortFracs]
    rw [countP_insertFrac]
    simp [List.countP_cons, ih]

theorem length_sortFracs : ∀ l : List Frac, (sortFracs l).length = l.length := by
  intro l
  induction l with
  | nil => rfl
  | cons a as ih =>
    simp only [sortFracs]
    rw [length_insertFrac, ih]
    rfl

theorem pairwise_insertFrac {a : Frac} : ∀ {l : List Frac},
    (∀ c ∈ a :: l, 0 < c.den) →
    l.Pairwise (fun u v => fracLE u v = true) →
    (insertFrac a l).Pairwise (fun u v => fracLE u v = true) := by
  intro l
  induction l with
  | nil =>
    intro _ _
    simp [insertFrac]
  | cons b bs ih =>
    intro hden hp
    rcases List.pairwise_cons.mp hp with ⟨hb_all, hp_bs⟩
    simp only [insertFrac]
    by_cases hc : fracLE a b = true
    · rw [if_pos hc]
      refine List.pairwise_cons.mpr ⟨?_, hp⟩
      intro c hc'
      rcases List.mem_cons.mp hc' with rfl | hc''
      · exact hc
      · refine fracLE_trans (hden a (by simp)) (hden b (by simp)) ?_ hc (hb_all c hc'')
        exact hden c (by simp [hc''])
    · rw [if_neg hc]
      have hba : fracLE b a = true := (fracLE_total a b).resolve_left hc
      refine List.pairwise_cons.mpr ⟨?_, ?_⟩
      · intro c hc'
        rcases mem_insertFrac hc' with rfl | hc''
        · exact hba
        · exact hb_all c hc''
      · refine ih ?_ hp_bs
        intro c hcc
        refine hden c ?_
        rcases List.mem_cons.mp hcc with rfl | h
        · simp
        · simp [h]

theorem pairwise_sortFracs : ∀ {l : List Frac}, (∀ c ∈ l, 0 < c.den) →
    (sortFracs l).Pairwise (fun u v => fracLE u v = true) := by
  intro l
  induction l with
  | nil => intro _; simp [sortFracs]
  | cons a as ih =>
    intro hden
    simp only [sortFracs]
    refine pairwise_insertFrac ?_ (ih fun c hc => hden c (List.mem_cons.mpr (Or.inr hc)))
    intro c hc
    rcases List.mem_cons.mp hc with rfl | hc'
    · exact hden c (by simp)
    · exact hden c (List.mem_cons.mpr (Or.inr (mem_sortFracs hc')))

theorem mem_pairUp : ∀ {l : List Frac} {s : Frac × Frac}, s ∈ pairUp l → s.1 ∈ l ∧ s.2 ∈ l
  | [], s, h => by simp [pairUp] at h
  | [a], s, h => by simp [pairUp] at h
  | a :: b :: rest, s, h => by
    simp only [pairUp, List.mem_cons] at h
    rcases h with rfl | h
    · exact ⟨by simp, by simp⟩
    · have hm := mem_pairUp h
      exact ⟨List.mem_cons.mpr (Or.inr (List.mem_cons.mpr (Or.inr hm.1))),
             List.mem_cons.mpr (Or.inr (List.mem_cons.mpr (Or.inr hm.2)))⟩

/-! ## Counting crossings along the filterMap -/

theorem countP_filterMap_guard {α β : Type} (g : α → Bool) (f : α → β) (p : β → Bool) :
    ∀ l : List α, ((l.filterMap fun e => if g e then some (f e) else none).countP p)
      = l.countP fun e => g e && p (f e) := by
  intro l
  induction l with
  | nil => rfl
  | cons e es ih =>
    by_cases hg : g e = true
    · simp [List.filterMap_cons, hg, List.countP_cons, ih]
    · simp [List.filterMap_cons, hg, List.countP_cons, ih]

theorem rayCrossings_eq_countP (pts : List (Int × Int)) (x y : Int) :
    rayCrossings pts x y = (rowCrossings pts y).countP (leftOfCrossing x) := by
  unfold rayCrossings rowCrossings
  rw [countP_filterMap_guard (fun e => straddles e y) (fun e => crossingAt e y)
    (leftOfCrossing x)]

/-! ## Crossings with integer abscissa lie on the boundary -/

theorem onSeg_core {p1 p2 q1 q2 x y : Int} (h1 : p2 ≤ y) (h2 : y < q2)
    (heq : x * (q2 - p2) = p1 * (q2 - p2) + (y - p2) * (q1 - p1)) :
    onSeg (p1, p2) (q1, q2) (x, y) = true := by
  have hd : 0 < q2 - p2 := by omega
  have heq' : (x - p1) * (q2 - p2) = (y - p2) * (q1 - p1) := by linarith
  simp only [onSeg, Bool.and_eq_true, decide_eq_true_eq]
  refine ⟨⟨⟨⟨?_, ?_⟩, ?_⟩, ?_⟩, ?_⟩
  · -- min p1 q1 ≤ x
    rcases le_total p1 q1 with hpq | hpq
    · refine min_le_iff.mpr (Or.inl ?_)
      have h0 : 0 * (q2 - p2) ≤ (x - p1) * (q2 - p2) := by
        rw [heq']
        have := mul_nonneg (by omega : (0:Int) ≤ y - p2) (by omega : (0:Int) ≤ q1 - p1)
        omega
      have := Int.le_of_mul_le_mul_right h0 hd
      omega
    · refine min_le_iff.mpr (Or.inr ?_)
      have h0 : (q1 - p1) * (q2 - p2) ≤ (x - p1) * (q2 - p2) := by
        rw [heq']
        nlinarith
      have := Int.le_of_mul_le_mul_right h0 hd
      omega
  · -- x ≤ max p1 q1
    rcases le_total p1 q1 with hpq | hpq
    · refine le_max_iff.mpr (Or.inr ?_)
      have h0 : (x - p1) * (q2 - p2) ≤ (q1 - p1) * (q2 - p2) := by
        rw [heq']
        nlinarith
      have := Int.le_of_mul_le_mul_right h0 hd
      omega
    · refine le_max_iff.mpr (Or.inl ?_)
      have h0 : (x - p1) * (q2 - p2) ≤ 0 * (q2 - p2) := by
        rw [heq']
        have := mul_nonneg (by omega : (0:Int) ≤ y - p2) (by omega : (0:Int) ≤ p1 - q1)
        nlinarith
      have := Int.le_of_mul_le_mul_right h0 hd
      omega
  · exact min_le_iff.mpr (Or.inl h1)
  · exact le_max_iff.mpr (Or.inr h2.le)
  · linarith [heq']

theorem onSeg_swap {p q r : Int × Int} (h : onSeg p q r = true) : onSeg q p r = true := by
  obtain ⟨p1, p2⟩ := p
  obtain ⟨q1, q2⟩ := q
  obtain ⟨r1, r2⟩ := r
  simp only [onSeg, Bool.and_eq_true, decide_eq_true_eq] at h ⊢
  obtain ⟨⟨⟨⟨ha, hb⟩, hc⟩, hd⟩, hcol⟩ := h
  refine ⟨⟨⟨⟨?_, ?_⟩, ?_⟩, ?_⟩, ?_⟩
  · rwa [min_comm]
  · rwa [max_comm]
  · rwa [min_comm]
  · rwa [max_comm]
  · linear_combination -hcol

theorem straddles_den_pos {e : (Int × Int) × (Int × Int)} {y : Int}
    (hs : straddles e y = true) : 0 < (crossingAt e y).den := by
  simp only [straddles, Bool.or_eq_true, Bool.and_eq_true, decide_eq_true_eq] at hs
  unfold crossingAt
  split
  · rename_i hd
    simpa using hd
  · rename_i hd
    simp only
    omega

theorem crossing_on_edge {e : (Int × Int) × (Int × Int)} {x y : Int}
    (hs : straddles e y = true)
    (hx : x * (crossingAt e y).den = (crossingAt e y).num) :
    onSeg e.1 e.2 (x, y) = true := by
  obtain ⟨⟨p1, p2⟩, ⟨q1, q2⟩⟩ := e
  simp only [straddles, Bool.or_eq_true, Bool.and_eq_true, decide_eq_true_eq] at hs
  unfold crossingAt at hx
  simp only at hx hs ⊢
  split at hx
  · -- q2 - p2 > 0 : the edge ascends, the straddle must be the first case
    rename_i hd
    simp only at hx hd
    have hcase : p2 ≤ y ∧ y < q2 := by
      rcases hs with h | h
      · exact h
      · omega
    exact onSeg_core hcase.1 hcase.2 (by linarith [hx])
  · -- the edge descends: reverse it and use the core lemma
    rename_i hd
    simp only at hx hd
    have hcase : q2 ≤ y ∧ y < p2 := by
      rcases hs with h | h
      · omega
      · exact h
    refine onSeg_swap (@onSeg_core q1 q2 p1 p2 x y hcase.1 hcase.2 ?_)
    linear_combination hx

theorem rowCrossings_spec {pts : List (Int × Int)} {y : Int} {c : Frac}
    (hc : c ∈ rowCrossings pts y) :
    ∃ e ∈ closeEdges pts, straddles e y = true ∧ c = crossingAt e y := by
  unfold rowCrossings at hc
  rcases List.mem_filterMap.mp hc with ⟨e, he, hfe⟩
  refine ⟨e, he, ?_⟩
  by_cases hs : straddles e y = true
  · rw [if_pos hs] at hfe
    exact ⟨hs, (Option.some_inj.mp hfe).symm⟩
  · rw [if_neg hs] at hfe
    exact absurd hfe (by simp)

theorem rowCrossings_den_pos {pts : List (Int × Int)} {y : Int} :
    ∀ c ∈ rowCrossings pts y, 0 < c.den := by
  intro c hc
  rcases rowCrossings_spec hc with ⟨e, _, hs, rfl⟩
  exact straddles_den_pos hs

theorem rowCrossings_not_integer {pts : List (Int × Int)} {x y : Int}
    (hb : onBoundary pts x y = false) :
    ∀ c ∈ rowCrossings pts y, x * c.den ≠ c.num := by
  intro c hc hx
  rcases rowCrossings_spec hc with ⟨e, he, hs, rfl⟩
  have hseg := crossing_on_edge hs hx
  have : onBoundary pts x y = true := by
    unfold onBoundary
    exact List.any_eq_true.mpr ⟨e, he, hseg⟩
  rw [this] at hb
  exact Bool.noConfusion hb

/-! ## Parity of the crossing count versus span membership

For a sorted, even-length list of crossings with positive denominators,
and an abscissa `x` equal to none of them, the rightward ray from `x`
crosses an odd number of them exactly when `x` lies in one of the paired
spans.  This is the heart of the claim that the scanline fill paints
exactly the polygon interior away from the boundary. -/

theorem spans_parity (x : Int) :
    ∀ L : List Frac, L.length % 2 = 0 →
      (∀ c ∈ L, 0 < c.den) →
      L.Pairwise (fun u v => fracLE u v = true) →
      (∀ c ∈ L, x * c.den ≠ c.num) →
      (L.countP (leftOfCrossing x) % 2 = 1 ↔ ∃ s ∈ pairUp L, inSpan x s = true)
  | [] => by
    intro _ _ _ _
    simp [pairUp]
  | [a] => by
    intro h _ _ _
    simp at h
  | a :: b :: rest => by
    intro hlen hden hsort hnx
    have hlen' : rest.length % 2 = 0 := by
      simp only [List.length_cons] at hlen
      omega
    have ha_den : 0 < a.den := hden a (by simp)
    have hb_den : 0 < b.den := hden b (by simp)
    have hden' : ∀ c ∈ rest, 0 < c.den := fun c hc => hden c (by simp [hc])
    rcases List.pairwise_cons.mp hsort with ⟨hab_all, hsort'⟩
    rcases List.pairwise_cons.mp hsort' with ⟨hb_all, hsort_rest⟩
    have hab : fracLE a b = true := hab_all b (by simp)
    have hnx' : ∀ c ∈ rest, x * c.den ≠ c.num := fun c hc => hnx c (by simp [hc])
    have hpair : pairUp (a :: b :: rest) = (a, b) :: pairUp rest := rfl
    rcases lt_trichotomy (x * a.den) a.num with hxa | hxa | hxa
    · -- x lies strictly left of every crossing: even count, no span
      have hla : leftOfCrossing x a = true := by
        simp [leftOfCrossing, hxa]
      have hall : ∀ c ∈ a :: b :: rest, leftOfCrossing x c = true := by
        intro c hc
        rcases List.mem_cons.mp hc with rfl | hc'
        · exact hla
        · exact leftOf_mono ha_den (hden c hc) hla (hab_all c hc')
      have hcount : (a :: b :: rest).countP (leftOfCrossing x) = rest.length + 2 := by
        rw [List.countP_eq_length.mpr hall]
        simp
      refine iff_of_false ?_ ?_
      · rw [hcount]
        omega
      · rintro ⟨s, hs, hins⟩
        have hs1 : s.1 ∈ a :: b :: rest := by
          rw [hpair] at hs
          rcases List.mem_cons.mp hs with rfl | hs'
          · simp
          · exact List.mem_cons.mpr (Or.inr (List.mem_cons.mpr (Or.inr (mem_pairUp hs').1)))
        have hl1 : leftOfCrossing x s.1 = true := hall s.1 hs1
        simp only [leftOfCrossing, decide_eq_true_eq] at hl1
        simp only [inSpan, Bool.and_eq_true, decide_eq_true_eq] at hins
        omega
    · exact absurd hxa (hnx a (by simp))
    · -- a lies strictly left of x
      have hla : leftOfCrossing x a = false := by
        simp only [leftOfCrossing, decide_eq_false_iff_not]
        omega
      rcases lt_trichotomy (x * b.den) b.num with hxb | hxb | hxb
      · -- a < x < b: x lies in the first span, odd count
        have hlb : leftOfCrossing x b = true := by
          simp [leftOfCrossing, hxb]
        have hall : ∀ c ∈ rest, leftOfCrossing x c = true := fun c hc =>
          leftOf_mono hb_den (hden' c hc) hlb (hb_all c hc)
        have hcount : (a :: b :: rest).countP (leftOfCrossing x) = rest.length + 1 := by
          simp only [List.countP_cons, hla, hlb, List.countP_eq_length.mpr hall]
          simp
        refine iff_of_true ?_ ?_
        · rw [hcount]
          omega
        · refine ⟨(a, b), by rw [hpair]; simp, ?_⟩
          simp only [inSpan, Bool.and_eq_true, decide_eq_true_eq]
          omega
      · exact absurd hxb (hnx b (by simp))
      · -- both a and b lie strictly left of x: defer to the rest
        have hlb : leftOfCrossing x b = false := by
          simp only [leftOfCrossing, decide_eq_false_iff_not]
          omega
        have hcount : (a :: b :: rest).countP (leftOfCrossing x)
            = rest.countP (leftOfCrossing x) := by
          simp [List.countP_cons, hla, hlb]
        have ih := spans_parity x rest hlen' hden' hsort_rest hnx'
        rw [hcount, hpair, ih]
        constructor
        · rintro ⟨s, hs, hins⟩
          exact ⟨s, by simp [hs], hins⟩
        · rintro ⟨s, hs, hins⟩
          rcases List.mem_cons.mp hs with rfl | hs'
          · simp only [inSpan, Bool.and_eq_true, decide_eq_true_eq] at hins
            omega
          · exact ⟨s, hs', hins⟩

/-- The scanline fill paints a non-boundary point exactly when its
rightward ray crosses the polygon an odd number of times, provided its row
has an even number of crossings. -/
theorem scanline_parity {x y : Int}
    (heven : (rowCrossings points y).length % 2 = 0)
    (hb : onBoundary points x y = false) :
    scanlineFilled points x y = true ↔ rayCrossings points x y % 2 = 1 := by
  have hden : ∀ c ∈ rowCrossings points y, 0 < c.den := rowCrossings_den_pos
  have hdenS : ∀ c ∈ sortFracs (rowCrossings points y), 0 < c.den :=
    fun c hc => hden c (mem_sortFracs hc)
  have hsort := pairwise_sortFracs hden
  have hlen : (sortFracs (rowCrossings points y)).length % 2 = 0 := by
    rw [length_sortFracs]
    exact heven
  have hnx : ∀ c ∈ sortFracs (rowCrossings points y), x * c.den ≠ c.num :=
    fun c hc => rowCrossings_not_integer hb c (mem_sortFracs hc)
  have hp := spans_parity x (sortFracs (rowCrossings points y)) hlen hdenS hsort hnx
  rw [countP_sortFracs, ← rayCrossings_eq_countP] at hp
  unfold scanlineFilled rowSpans
  rw [List.any_eq_true]
  exact hp.symm

set_option maxRecDepth 40000 in
/-- Every pixel row of the canvas meets the polygon's edges an even number
of times (checked row by row). -/
theorem rows_even : ∀ y : Nat, y < 256 → (rowCrossings points (y : Int)).length % 2 = 0 := by
  decide

/-! ## The claims -/

/-- C1: Before the polygon is drawn, every pixel of the 256x256 RGBA canvas
created by `create_icon` equals `(0,0,0,0)`; after the single polygon-fill
operation, every pixel strictly inside the 16-point polygon boundary equals
the fill color `#D94E41` with alpha 255, and every pixel strictly outside
the polygon remains `(0,0,0,0)`. -/
theorem canvas_invariant :
    ∀ x y : Nat, x < 256 → y < 256 →
      canvasBefore x y = ⟨0, 0, 0, 0⟩ ∧
      (strictlyInside points (x : Int) (y : Int) = true →
        canvasAfter x y = ⟨217, 78, 65, 255⟩) ∧
      (strictlyOutside points (x : Int) (y : Int) = true →
        canvasAfter x y = ⟨0, 0, 0, 0⟩) := by
  intro x y hx hy
  refine ⟨rfl, ?_, ?_⟩
  · intro h
    simp only [strictlyInside, Bool.and_eq_true, Bool.not_eq_true',
      decide_eq_true_eq] at h
    have hfill : scanlineFilled points (x : Int) (y : Int) = true :=
      (scanline_parity (rows_even y hy) h.1).mpr h.2
    show (if scanlineFilled points (x : Int) (y : Int) = true
      then fillColor else canvasBefore x y) = ⟨217, 78, 65, 255⟩
    rw [hfill, if_pos rfl]
    decide
  · intro h
    simp only [strictlyOutside, Bool.and_eq_true, Bool.not_eq_true',
      decide_eq_true_eq] at h
    have hfill : scanlineFilled points (x : Int) (y : Int) = false := by
      cases hfb : scanlineFilled points (x : Int) (y : Int)
      · rfl
      · have := (scanline_parity (rows_even y hy) h.1).mp hfb
        omega
    show (if scanlineFilled points (x : Int) (y : Int) = true
      then fillColor else canvasBefore x y) = ⟨0, 0, 0, 0⟩
    rw [hfill, if_neg (by decide)]
    rfl

/-- Witness for `canvas_invariant`: the interior pixel (100,150) is painted
with the fill color and the exterior pixel (1,1) stays transparent. -/
theorem canvas_invariant_witness :
    canvasAfter 100 150 = ⟨217, 78, 65, 255⟩ ∧ canvasAfter 1 1 = ⟨0, 0, 0, 0⟩ :=
  ⟨(canvas_invariant 100 150 (by decide) (by decide)).2.1 (by decide),
   (canvas_invariant 1 1 (by decide) (by decide)).2.2 (by decide)⟩

/-- C2: The icon artifact produced by `create_icon` contains exactly 6
embedded images, each with width equal to height, whose side lengths are
exactly the set `{256,128,64,48,32,16}`, each size occurring exactly once. -/
theorem artifact_sizes :
    icoArtifact.length = 6 ∧
    (icoArtifact.map fun img => (img.width, img.height))
      = [(256, 256), (128, 128), (64, 64), (48, 48), (32, 32), (16, 16)] ∧
    (icoArtifact.map fun img => img.width).Perm [256, 128, 64, 48, 32, 16] := by
  refine ⟨rfl, rfl, ?_⟩
  have h : (icoArtifact.map fun img => img.width) = [256, 128, 64, 48, 32, 16] := rfl
  rw [h]

/-- C3: For any two successive invocations of `create_icon` under unchanged
(or indeed any) environments, the two 256x256 canvases produced just before
encoding are bit-identical: the canvas depends on no input at all. -/
theorem deterministic_canvas :
    ∀ w₁ w₂ : World, ∀ x y : Nat, (create_icon w₁).2 x y = (create_icon w₂).2 x y := by
  intro w₁ w₂ x y
  rfl

/-- C4: After the polygon is drawn by `create_icon`, the center pixel at
coordinate (128,128) is interior to the 16-point polygon and has color
`#D94E41` with alpha 255. -/
theorem center_pixel_filled :
    strictlyInside points 128 128 = true ∧ canvasAfter 128 128 = ⟨217, 78, 65, 255⟩ := by
  constructor
  · decide
  · decide

/-- C5: After the polygon is drawn by `create_icon`, the corner pixel at
coordinate (0,0) lies outside the polygon and remains fully transparent. -/
theorem corner_pixel_transparent :
    strictlyOutside points 0 0 = true ∧ canvasAfter 0 0 = ⟨0, 0, 0, 0⟩ := by
  constructor
  · decide
  · decide

/-- C6: Running `create_icon` twice in a row, the second run overwriting the
same output path `logo.ico`, yields two output files with the same icon
content — hence identical pixel content in every one of the six embedded
sizes. -/
theorem idempotent_output :
    ∀ w : World,
      (create_icon w).1.fs outputPath = some icoArtifact ∧
      (create_icon (create_icon w).1).1.fs outputPath = some icoArtifact ∧
      (create_icon (create_icon w).1).1.fs outputPath
        = (create_icon w).1.fs outputPath := by
  intro w
  refine ⟨?_, ?_, ?_⟩ <;> simp [create_icon]

/-- C7: The polygon constant used by `create_icon` has exactly 16 vertices,
every vertex coordinate lies within the 0-256 canvas bounds, and exactly one
polygon-fill operation is performed per execution. -/
theorem polygon_invariants :
    points.length = 16 ∧
    (∀ p ∈ points, 0 ≤ p.1 ∧ p.1 ≤ 256 ∧ 0 ≤ p.2 ∧ p.2 ≤ 256) ∧
    drawOps.countP isPolygonFill = 1 := by
  refine ⟨rfl, ?_, rfl⟩
  decide

/-- Witness for `polygon_invariants`: the first vertex (128,20) is in the
list and within bounds. -/
theorem polygon_invariants_witness :
    (128, 20) ∈ points ∧
    (0 ≤ (128 : Int) ∧ (128 : Int) ≤ 256 ∧ 0 ≤ (20 : Int) ∧ (20 : Int) ≤ 256) :=
  ⟨by decide, polygon_invariants.2.1 (128, 20) (by decide)⟩

/-- C8: The closed path through the 16 literal polygon vertices (the last
vertex implicitly connected back to the first) is simple: every edge is
nondegenerate, no two non-adjacent edges share any point, and adjacent
edges meet only at their shared vertex. -/
theorem polygon_simple :
    (∀ i : Fin 16, (edgeAt i).1 ≠ (edgeAt i).2) ∧
    (∀ i j : Fin 16, ¬(i = j ∨ j = i + 1 ∨ i = j + 1) →
      segIntersect (edgeAt i) (edgeAt j) = false) ∧
    (∀ i : Fin 16, meetOnlyAtShared (edgeAt i) (edgeAt (i + 1)) = true) := by
  refine ⟨by decide, ?_, by decide⟩
  decide

/-- Witness for `polygon_simple`: the non-adjacent edges 0 and 5 are
disjoint. -/
theorem polygon_simple_witness :
    ¬((0 : Fin 16) = 5 ∨ (5 : Fin 16) = 0 + 1 ∨ (0 : Fin 16) = 5 + 1) ∧
    segIntersect (edgeAt 0) (edgeAt 5) = false :=
  ⟨by decide, polygon_simple.2.1 0 5 (by decide)⟩

/-- C9: The polygon is filled with the single constant opaque color
`#D94E41` — RGBA `(217,78,65,255)` — and no stroke or outline is drawn:
the trace holds exactly one polygon operation, whose fill is that color
and whose outline is `none`. -/
theorem fill_color_no_outline :
    parseHexColor fillColorString = some ⟨217, 78, 65, 255⟩ ∧
    drawOps = [.polygon points (some ⟨217, 78, 65, 255⟩) none] := by
  constructor
  · decide
  · decide

/-- C10: The 16-vertex polygon is mirror-symmetric about the vertical line
x = 128: for every vertex `(x, y)` in the points list, `(256 - x, y)` is
also a vertex of the list. -/
theorem polygon_mirror_symmetric :
    ∀ p ∈ points, (256 - p.1, p.2) ∈ points := by
  decide

/-- Witness for `polygon_mirror_symmetric`: the vertex (150,80) reflects to
(106,80), also a vertex. -/
theorem polygon_mirror_symmetric_witness :
    (150, 80) ∈ points ∧ ((256 : Int) - 150, (80 : Int)) ∈ points :=
  ⟨by decide, polygon_mirror_symmetric (150, 80) (by decide)⟩

end CreateIcon
